import Mathlib

/-!
Verification of the pydatastructs linked-list family and its node
abstraction.  The repository ships the node definitions
(`pydatastructs/utils/misc_util.py`) and the linked-list test suite; the
linked-list implementation file itself is absent, so the list operations
below are modelled from the specification, with the concrete behaviour
pinned by the assertions of `test_linked_lists.py` wherever the two speak
to the same point (notably negative-index insertion and the exact string
rendering format).
-/

namespace PyDS

/-- Modelled from the spec: the four list variants of §2 (the linked-list
implementation file is missing from the sources; only its tests and the
node definitions are present). -/
inductive Variant where
  | singly
  | doubly
  | singlyCircular
  | doublyCircular
deriving DecidableEq

/-- Modelled from the spec: circular variants close the chain, so the
tail's forward link returns to the head (§3 invariants). -/
def Variant.isCircular : Variant → Bool
  | .singlyCircular => true
  | .doublyCircular => true
  | _ => false

/-- Modelled from the spec: a list node carries a key; `nid` is the
allocation identity standing for the Python object identity, so that
"returns the node reference itself, not a copy" is expressible. -/
structure LNode (K : Type) where
  nid : Nat
  key : K
deriving DecidableEq

/-- Modelled from the spec: a list state of any variant — the head-to-tail
node sequence (`head` is the first entry, `tail` the last), together with
the variant tag and the next free allocation identity.  The pointer
structure of §3 is derived from the sequence by `nextIdx` below. -/
structure LinkedList (K : Type) where
  variant : Variant
  nodes : List (LNode K)
  fresh : Nat
deriving DecidableEq

variable {K : Type}

/-- The `size` counter: number of nodes reachable from head (§3). -/
def LinkedList.size (l : LinkedList K) : Nat := l.nodes.length

/-- Modelled from the spec: §7 error taxonomy.  `OutOfRange` is Python's
`IndexError`, `EmptyContainer` is the `ValueError` the tests expect from
`extract` on an empty list. -/
inductive LLError where
  | OutOfRange
  | EmptyContainer
deriving DecidableEq

/-- Modelled from the spec: §4.1 index normalization for access and
extraction — a negative `i` becomes `size + i`, and the result must lie in
`[0, size-1]`. -/
def accessNorm (size : Nat) (i : Int) : Option Nat :=
  let j : Int := if i < 0 then (size : Int) + i else i
  if 0 ≤ j ∧ j < (size : Int) then some j.toNat else none

/-- Modelled from the spec: §4.1/§4.4 insertion normalization.  The valid
range is `[0, size]` (one-past-end admitted, §4.4).  The negative rule is
`size + i`, as pinned by the test suite (`insert_at(-1, 9)` inserts the new
node immediately before the current last element), which overrides the
`size + 1 + i` phrasing of §4.1 — that phrasing also contradicts the
spec's own scenario B. -/
def insertNorm (size : Nat) (i : Int) : Option Nat :=
  let j : Int := if i < 0 then (size : Int) + i else i
  if 0 ≤ j ∧ j ≤ (size : Int) then some j.toNat else none

/-- Modelled from the spec: `append(key)` — new node at the tail (§4.2),
allocated with a fresh identity. -/
def LinkedList.append (l : LinkedList K) (k : K) : LinkedList K :=
  ⟨l.variant, l.nodes ++ [⟨l.fresh, k⟩], l.fresh + 1⟩

/-- Modelled from the spec: `append_left(key)` — new node at the head
(§4.2). -/
def LinkedList.append_left (l : LinkedList K) (k : K) : LinkedList K :=
  ⟨l.variant, ⟨l.fresh, k⟩ :: l.nodes, l.fresh + 1⟩

/-- Modelled from the spec: `insert_at(index, key)` (§4.4) — normalize,
then splice a fresh node before the node currently at the normalized
position; position `size` appends.  Out-of-range indices fail with
`OutOfRange`. -/
def LinkedList.insert_at (l : LinkedList K) (i : Int) (k : K) :
    Except LLError (LinkedList K) :=
  match insertNorm l.size i with
  | none => .error .OutOfRange
  | some j => .ok ⟨l.variant, l.nodes.take j ++ ⟨l.fresh, k⟩ :: l.nodes.drop j, l.fresh + 1⟩

/-- Modelled from the spec: `extract(index)` (§4.4) — on an empty list the
distinct `EmptyContainer` error is raised regardless of the index;
otherwise normalize and remove the node at that position, `OutOfRange`
when normalization fails. -/
def LinkedList.extract (l : LinkedList K) (i : Int) :
    Except LLError (LinkedList K) :=
  if l.size = 0 then .error .EmptyContainer
  else
    match accessNorm l.size i with
    | none => .error .OutOfRange
    | some j => .ok ⟨l.variant, l.nodes.take j ++ l.nodes.drop (j + 1), l.fresh⟩

/-- Modelled from the spec: `pop_left()` (§4.2) — remove and return the
head node; `EmptyContainer` when `size == 0`. -/
def LinkedList.pop_left (l : LinkedList K) :
    Except LLError (LNode K × LinkedList K) :=
  match l.nodes with
  | [] => .error .EmptyContainer
  | n :: rest => .ok (n, ⟨l.variant, rest, l.fresh⟩)

/-- Modelled from the spec: `pop_right()` (§4.2) — remove and return the
tail node; `EmptyContainer` when `size == 0`. -/
def LinkedList.pop_right (l : LinkedList K) :
    Except LLError (LNode K × LinkedList K) :=
  match l.nodes.getLast? with
  | none => .error .EmptyContainer
  | some n => .ok (n, ⟨l.variant, l.nodes.dropLast, l.fresh⟩)

/-- Modelled from the spec: indexed access `list[i]` (§4.5) — normalize in
the access range and return the stored node itself; any normalization
failure (including every index on an empty list) is `OutOfRange`, never
`EmptyContainer`. -/
def LinkedList.getitem (l : LinkedList K) (i : Int) :
    Except LLError (LNode K) :=
  match accessNorm l.size i with
  | none => .error .OutOfRange
  | some j =>
    match l.nodes[j]? with
    | none => .error .OutOfRange
    | some n => .ok n

/-- Modelled from the spec: mutation of a node obtained by reference — the
Python caller writes `node.key = v`, which updates the list's stored state
at the node with that identity.  Stands for the aliasing of the returned
reference with the stored node. -/
def LinkedList.setKeyByNid (l : LinkedList K) (nid : Nat) (k : K) : LinkedList K :=
  ⟨l.variant, l.nodes.map (fun n => if n.nid = nid then ⟨n.nid, k⟩ else n), l.fresh⟩

/-- Modelled from the spec: the derived forward-pointer structure of §3 —
from position `i` the `next` link leads to `i + 1`, and from the tail of a
circular variant back to the head; the linear variants have no successor
of the tail. -/
def LinkedList.nextIdx (l : LinkedList K) (i : Nat) : Option Nat :=
  if i + 1 < l.size then some (i + 1)
  else if i + 1 = l.size ∧ l.variant.isCircular = true then some 0
  else none

/-- Position of the head node, if any. -/
def LinkedList.headIdx (l : LinkedList K) : Option Nat :=
  if l.size = 0 then none else some 0

/-- Modelled from the spec: a fuel-bounded traversal following the derived
`next` pointers — the bound is what keeps circular variants from looping
(§4.5, §4.6). -/
def LinkedList.walk (l : LinkedList K) : Nat → Option Nat → List (LNode K)
  | 0, _ => []
  | _ + 1, none => []
  | fuel + 1, some i =>
    match l.nodes[i]? with
    | none => []
    | some n => n :: l.walk fuel (l.nextIdx i)

/-- The single-quote character, written by code point to keep the file
free of quote literals. -/
def sq : String := String.singleton (Char.ofNat 39)

/-- Python's `str` of a list of strings: bracketed, comma-separated, each
element single-quoted — the format the test suite asserts
(`str(dll) == "[...]"` with quoted elements). -/
def pyStrList (ss : List String) : String :=
  "[" ++ String.intercalate ", " (ss.map (fun s => sq ++ s ++ sq)) ++ "]"

/-- Modelled from the spec: `__str__` (§4.6) — walk exactly `size` steps
from the head collecting `str(node.key)` for each visited node, then
render as Python renders the resulting list of strings.  The element
quoting is pinned by the test assertions. -/
def LinkedList.render [ToString K] (l : LinkedList K) : String :=
  pyStrList ((l.walk l.size l.headIdx).map (fun n => toString n.key))

/-- Modelled from the spec: the scan inside `search` (§4.5) — follow the
derived `next` pointers from the head for at most `fuel` steps, returning
the first node whose key equals `k`. -/
def LinkedList.searchWalk [DecidableEq K] (l : LinkedList K) (k : K) :
    Nat → Option Nat → Option (LNode K)
  | 0, _ => none
  | _ + 1, none => none
  | fuel + 1, some i =>
    match l.nodes[i]? with
    | none => none
    | some n => if n.key = k then some n else l.searchWalk k fuel (l.nextIdx i)

/-- Modelled from the spec: `search(key)` (§4.5) — linear scan from the
head bounded by exactly `size` steps; `none` is the not-found sentinel. -/
def LinkedList.search [DecidableEq K] (l : LinkedList K) (k : K) : Option (LNode K) :=
  l.searchWalk k l.size l.headIdx

/-- Modelled from the spec: cross-variant copy (§4.7) — iterate the source
list's indices in order and append each observed node's key into a fresh
list of variant `v`, whose node identities are allocated from `start`. -/
def copyList (v : Variant) (start : Nat) (l : LinkedList K) : LinkedList K :=
  (List.range l.size).foldl
    (fun (acc : LinkedList K) (i : Nat) =>
      match l.getitem (i : Int) with
      | .ok n => acc.append n.key
      | .error _ => acc)
    ⟨v, [], start⟩

/-- Prefix of the cross-variant copy: the first `m` iterations of the
index loop of `copyList`. -/
def copyPrefix (v : Variant) (start : Nat) (l : LinkedList K) (m : Nat) : LinkedList K :=
  (List.range m).foldl
    (fun (acc : LinkedList K) (i : Nat) =>
      match l.getitem (i : Int) with
      | .ok n => acc.append n.key
      | .error _ => acc)
    ⟨v, [], start⟩

/-- Head-to-tail key sequence of a list. -/
def keysOf (l : LinkedList K) : List K := l.nodes.map LNode.key

/-- Key sequence of an operation result (empty on error), used to state
concrete scenarios decidably. -/
def keysOfE (e : Except LLError (LinkedList Int)) : List Int :=
  match e with
  | .ok l => keysOf l
  | .error _ => []

/-- Size and (identity, key) sequence of an operation result, used to
state concrete scenarios decidably. -/
def infoOfE (e : Except LLError (LinkedList Int)) :
    Option (Nat × List (Nat × Int)) :=
  match e with
  | .ok l => some (l.size, l.nodes.map (fun n => (n.nid, n.key)))
  | .error _ => none

/-- The empty doubly-linked list with allocation counter 0. -/
def emptyDLL : LinkedList Int := ⟨.doubly, [], 0⟩

/-- Scenario A build: `append_left(5)`, `append(1)`, `append_left(2)`,
`append(3)` on an empty doubly-linked list. -/
def buildA : LinkedList Int :=
  (((emptyDLL.append_left 5).append 1).append_left 2).append 3

/-- Scenario B build: `insert_at(0, 2)` then `insert_at(-1, 9)` on the
scenario A list. -/
def buildB : Except LLError (LinkedList Int) :=
  (buildA.insert_at 0 2).bind (fun l => l.insert_at (-1) 9)

/-- A doubly-linked list of size 7, mirroring the test list on which
`extract(20)` must fail with `OutOfRange`. -/
def l7 : LinkedList Int :=
  ⟨.doubly, [⟨0, 7⟩, ⟨1, 5⟩, ⟨2, 1⟩, ⟨3, 6⟩, ⟨4, 11⟩, ⟨5, 0⟩, ⟨6, 9⟩], 7⟩

/-- A two-element doubly-linked list used for the negative-insertion
counterexample. -/
def l2ex : LinkedList Int := ⟨.doubly, [⟨0, 5⟩, ⟨1, 1⟩], 2⟩

/-- A three-element singly-circular list used for the search and render
witnesses. -/
def lC7 : LinkedList Int := ⟨.singlyCircular, [⟨0, 5⟩, ⟨1, 1⟩, ⟨2, 3⟩], 3⟩

/-- `LinkedListNode` of `pydatastructs/utils/misc_util.py`: a key, a data
payload, and the named link attributes created by iterating
`zip(links, addrs)` in order (`zip` stops at the shorter list).  An
attribute value is an optional node address. -/
structure LinkedListNode (K D A : Type) where
  key : K
  data : Option D
  attrs : List (String × Option A)

/-- `LinkedListNode.__new__`: store `key` and `data` unchanged and set the
attribute named by each entry of `links` to the address at the same
position of `addrs`, pairing by `zip`. -/
def mkLinkedListNode (key : K) (data : Option D) (links : List String)
    (addrs : List (Option A)) : LinkedListNode K D A :=
  ⟨key, data, links.zip addrs⟩

/-- Attribute lookup on the node: the value of the last `__setattr__` for
that name, `none` when the attribute was never set. -/
def LinkedListNode.getattr {D A : Type} (n : LinkedListNode K D A)
    (name : String) : Option (Option A) :=
  (n.attrs.reverse.find? (fun p => decide (p.1 = name))).map Prod.snd

/-- `LinkedListNode.__str__`: `str(self.key)`. -/
def LinkedListNode.str [ToString K] {D A : Type} (n : LinkedListNode K D A) : String :=
  toString n.key

end PyDS

namespace PyDS

lemma accessNorm_some_lt {size j : Nat} {i : Int}
    (h : accessNorm size i = some j) : j < size := by
  unfold accessNorm at h
  simp only at h
  split at h <;> split at h
  all_goals first
    | exact Option.noConfusion h
    | (have hj := Option.some.inj h; omega)

lemma accessNorm_nat {size j : Nat} (h : j < size) :
    accessNorm size (j : Int) = some j := by
  have h1 : ¬((j : Int) < 0) := by omega
  have h2 : 0 ≤ ((j : Int)) ∧ ((j : Int)) < (size : Int) := by omega
  unfold accessNorm
  simp only
  rw [if_neg h1, if_pos h2]
  simp

lemma getitem_nat (l : LinkedList K) {j : Nat} {n : LNode K}
    (h : l.nodes[j]? = some n) : l.getitem (j : Int) = .ok n := by
  have hj : j < l.size := by
    obtain ⟨hlt, -⟩ := List.getElem?_eq_some_iff.mp h
    simpa [LinkedList.size] using hlt
  unfold LinkedList.getitem
  rw [accessNorm_nat hj]
  simp [h]

lemma walk_eq_take (l : LinkedList K) :
    ∀ (fuel i : Nat), i + fuel ≤ l.size →
      l.walk fuel (some i) = (l.nodes.drop i).take fuel := by
  intro fuel
  induction fuel with
  | zero => intro i _; simp [LinkedList.walk]
  | succ m ih =>
    intro i h
    have hi : i < l.nodes.length := by
      simp only [LinkedList.size] at h; omega
    have hget : l.nodes[i]? = some (l.nodes[i]) := List.getElem?_eq_getElem hi
    have hdrop : l.nodes.drop i = l.nodes[i] :: l.nodes.drop (i + 1) :=
      List.drop_eq_getElem_cons hi
    rw [LinkedList.walk, hget]
    by_cases hlt : i + 1 < l.size
    · have hnext : l.nextIdx i = some (i + 1) := by
        simp [LinkedList.nextIdx, hlt]
      rw [hnext, ih (i + 1) (by omega), hdrop, List.take_succ_cons]
    · have hm : m = 0 := by
        simp only [LinkedList.size] at h hlt ⊢; omega
      subst hm
      simp only [LinkedList.walk]
      rw [hdrop, List.take_succ_cons, List.take_zero]

lemma walk_full (l : LinkedList K) : l.walk l.size l.headIdx = l.nodes := by
  unfold LinkedList.headIdx
  by_cases h0 : l.size = 0
  · have hn : l.nodes = [] := by
      simpa [LinkedList.size] using h0
    rw [if_pos h0, hn, h0]
    simp [LinkedList.walk]
  · rw [if_neg h0, walk_eq_take l l.size 0 (by omega)]
    simp [LinkedList.size]

end PyDS

namespace PyDS

variable {K : Type}

lemma searchWalk_eq_find [DecidableEq K] (l : LinkedList K) (k : K) :
    ∀ (fuel i : Nat), i + fuel ≤ l.size →
      l.searchWalk k fuel (some i) =
        ((l.nodes.drop i).take fuel).find? (fun n => decide (n.key = k)) := by
  intro fuel
  induction fuel with
  | zero => intro i _; simp [LinkedList.searchWalk]
  | succ m ih =>
    intro i h
    have hi : i < l.nodes.length := by
      simp only [LinkedList.size] at h; omega
    have hget : l.nodes[i]? = some (l.nodes[i]) := List.getElem?_eq_getElem hi
    have hdrop : l.nodes.drop i = l.nodes[i] :: l.nodes.drop (i + 1) :=
      List.drop_eq_getElem_cons hi
    rw [LinkedList.searchWalk, hget]
    dsimp only
    by_cases hk : (l.nodes[i]).key = k
    · rw [if_pos hk, hdrop, List.take_succ_cons,
        List.find?_cons_of_pos _ (by simpa using hk)]
    · rw [if_neg hk]
      by_cases hlt : i + 1 < l.size
      · have hnext : l.nextIdx i = some (i + 1) := by
          simp [LinkedList.nextIdx, hlt]
        rw [hnext, ih (i + 1) (by omega), hdrop, List.take_succ_cons,
          List.find?_cons_of_neg _ (by simpa using hk)]
      · have hm : m = 0 := by
          simp only [LinkedList.size] at h hlt ⊢; omega
        subst hm
        rw [hdrop, List.take_succ_cons, List.take_zero,
          List.find?_cons_of_neg _ (by simpa using hk)]
        simp [LinkedList.searchWalk]

lemma search_eq_find [DecidableEq K] (l : LinkedList K) (k : K) :
    l.search k = l.nodes.find? (fun n => decide (n.key = k)) := by
  unfold LinkedList.search LinkedList.headIdx
  by_cases h0 : l.size = 0
  · have hn : l.nodes = [] := by
      simpa [LinkedList.size] using h0
    rw [if_pos h0, hn, h0]
    simp [LinkedList.searchWalk]
  · rw [if_neg h0, searchWalk_eq_find l k l.size 0 (by omega)]
    simp [LinkedList.size]

lemma find?_first {α : Type} (p : α → Bool) :
    ∀ (xs : List α) (n : α), xs.find? p = some n →
      p n = true ∧ ∃ j : Nat, xs[j]? = some n ∧
        ∀ j2 : Nat, j2 < j → ∃ m, xs[j2]? = some m ∧ p m = false := by
  intro xs
  induction xs with
  | nil => intro n h; exact Option.noConfusion h
  | cons x rest ih =>
    intro n h
    by_cases hp : p x = true
    · rw [List.find?_cons_of_pos _ hp] at h
      have hx := Option.some.inj h
      subst hx
      exact ⟨hp, 0, by simp, by omega⟩
    · rw [List.find?_cons_of_neg _ (by simpa using hp)] at h
      obtain ⟨h1, j, h2, h3⟩ := ih n h
      have h2b : (x :: rest)[j + 1]? = some n := by simpa using h2
      refine ⟨h1, j + 1, h2b, ?_⟩
      intro j2 hj2
      cases j2 with
      | zero => exact ⟨x, by simp, by simpa using hp⟩
      | succ j2 =>
        obtain ⟨m, hm1, hm2⟩ := h3 j2 (by omega)
        have hm1b : (x :: rest)[j2 + 1]? = some m := by simpa using hm1
        exact ⟨m, hm1b, hm2⟩

lemma nextIdx_tail (l : LinkedList K) (hc : l.variant.isCircular = true)
    (h0 : l.size ≠ 0) : l.nextIdx (l.size - 1) = some 0 := by
  unfold LinkedList.nextIdx
  rw [if_neg (by omega), if_pos ⟨by omega, hc⟩]

end PyDS

namespace PyDS

variable {K : Type}

lemma copyList_eq_copyPrefix (v : Variant) (start : Nat) (l : LinkedList K) :
    copyList v start l = copyPrefix v start l l.size := rfl

lemma copyPrefix_succ (v : Variant) (start : Nat) (l : LinkedList K) {m : Nat}
    (hm : m < l.nodes.length) :
    copyPrefix v start l (m + 1) =
      (copyPrefix v start l m).append ((l.nodes[m]).key) := by
  have hget : l.getitem (m : Int) = .ok (l.nodes[m]) :=
    getitem_nat l (List.getElem?_eq_getElem hm)
  simp only [copyPrefix, List.range_succ, List.foldl_append, List.foldl_cons,
    List.foldl_nil]
  rw [hget]

lemma copyPrefix_spec (v : Variant) (start : Nat) (l : LinkedList K) :
    ∀ m : Nat, m ≤ l.size →
      (copyPrefix v start l m).nodes.map LNode.key = (l.nodes.take m).map LNode.key ∧
      (copyPrefix v start l m).nodes.map LNode.nid = (List.range m).map (fun i => start + i) ∧
      (copyPrefix v start l m).fresh = start + m ∧
      (copyPrefix v start l m).variant = v := by
  intro m
  induction m with
  | zero => intro _; simp [copyPrefix]
  | succ m ih =>
    intro h
    have hm : m < l.size := by omega
    have hm2 : m < l.nodes.length := hm
    obtain ⟨ih1, ih2, ih3, ih4⟩ := ih (by omega)
    rw [copyPrefix_succ v start l hm2]
    refine ⟨?_, ?_, ?_, ?_⟩
    · simp only [LinkedList.append, List.map_append, ih1, List.map_take]
      rw [List.take_succ]
      simp [List.getElem?_map, List.getElem?_eq_getElem hm2]
    · simp only [LinkedList.append, List.map_append, ih2, ih3]
      rw [List.range_succ]
      simp
    · simp only [LinkedList.append, ih3]
      omega
    · simp [LinkedList.append, ih4]

lemma setKey_nodes (l : LinkedList K) (nid : Nat) (k2 : K) :
    (l.setKeyByNid nid k2).nodes =
      l.nodes.map (fun n => if n.nid = nid then ⟨n.nid, k2⟩ else n) := rfl

lemma setKey_at_pos (l : LinkedList K) {j : Nat} {n : LNode K}
    (hget : l.nodes[j]? = some n) (hnd : (l.nodes.map LNode.nid).Nodup) (k2 : K) :
    (l.setKeyByNid n.nid k2).nodes[j]? = some ⟨n.nid, k2⟩ ∧
    ∀ j2 : Nat, j2 ≠ j →
      (l.setKeyByNid n.nid k2).nodes[j2]? = l.nodes[j2]? := by
  constructor
  · rw [setKey_nodes, List.getElem?_map, hget]
    simp
  · intro j2 hne
    rw [setKey_nodes, List.getElem?_map]
    cases hg2 : l.nodes[j2]? with
    | none => simp
    | some m =>
      have hmn : m.nid ≠ n.nid := by
        intro heq
        obtain ⟨hj, hjv⟩ := List.getElem?_eq_some_iff.mp hget
        obtain ⟨hj2, hj2v⟩ := List.getElem?_eq_some_iff.mp hg2
        have hjm : j < (l.nodes.map LNode.nid).length := by simpa using hj
        have hj2m : j2 < (l.nodes.map LNode.nid).length := by simpa using hj2
        have e12 : (l.nodes.map LNode.nid)[j] = (l.nodes.map LNode.nid)[j2] := by
          simp [hjv, hj2v, heq]
        exact hne (hnd.getElem_inj_iff.mp e12).symm
      simp [hmn]

end PyDS

namespace PyDS

variable {K : Type}

lemma accessNorm_none_iff (size : Nat) (i : Int) :
    accessNorm size i = none ↔ (i < -(size : Int) ∨ (size : Int) ≤ i) := by
  unfold accessNorm
  simp only
  split_ifs <;> simp <;> omega

lemma insertNorm_none_iff (size : Nat) (i : Int) :
    insertNorm size i = none ↔ (i < -(size : Int) ∨ (size : Int) < i) := by
  unfold insertNorm
  simp only
  split_ifs <;> simp <;> omega

lemma accessNorm_neg_eq (size : Nat) (i : Int) (h1 : -(size : Int) ≤ i)
    (h2 : i < 0) : accessNorm size i = accessNorm size ((size : Int) + i) := by
  unfold accessNorm
  simp only
  rw [if_pos h2, if_neg (show ¬((size : Int) + i < 0) by omega)]

lemma insertNorm_neg_eq (size : Nat) (i : Int) (h1 : -(size : Int) ≤ i)
    (h2 : i < 0) : insertNorm size i = insertNorm size ((size : Int) + i) := by
  unfold insertNorm
  simp only
  rw [if_pos h2, if_neg (show ¬((size : Int) + i < 0) by omega)]

lemma getitem_neg_eq (l : LinkedList K) (i : Int) (h1 : -(l.size : Int) ≤ i)
    (h2 : i < 0) : l.getitem i = l.getitem ((l.size : Int) + i) := by
  unfold LinkedList.getitem
  rw [accessNorm_neg_eq l.size i h1 h2]

lemma insert_at_neg_eq (l : LinkedList K) (i : Int) (k : K)
    (h1 : -(l.size : Int) ≤ i) (h2 : i < 0) :
    l.insert_at i k = l.insert_at ((l.size : Int) + i) k := by
  unfold LinkedList.insert_at
  rw [insertNorm_neg_eq l.size i h1 h2]

lemma insert_at_ok_iff (l : LinkedList K) (i : Int) (k : K) :
    (∃ l2, l.insert_at i k = .ok l2) ↔
      ((0 ≤ i ∧ i ≤ (l.size : Int)) ∨ (-(l.size : Int) ≤ i ∧ i < 0)) := by
  unfold LinkedList.insert_at
  cases hn : insertNorm l.size i with
  | none =>
    have hr := (insertNorm_none_iff l.size i).mp hn
    dsimp only
    constructor
    · rintro ⟨l2, hl2⟩
      exact Except.noConfusion hl2
    · intro hor
      exfalso
      omega
  | some j =>
    have hne : insertNorm l.size i ≠ none := by rw [hn]; simp
    have hr := (not_iff_not.mpr (insertNorm_none_iff l.size i)).mp hne
    dsimp only
    constructor
    · intro _
      omega
    · intro _
      exact ⟨_, rfl⟩

lemma insert_at_oor (l : LinkedList K) (i : Int) (k : K)
    (h : ¬((0 ≤ i ∧ i ≤ (l.size : Int)) ∨ (-(l.size : Int) ≤ i ∧ i < 0))) :
    l.insert_at i k = .error .OutOfRange := by
  have hn : insertNorm l.size i = none := (insertNorm_none_iff l.size i).mpr (by omega)
  unfold LinkedList.insert_at
  rw [hn]

/-- C1: for every list variant and state, `extract(i)` on a list with
`size == 0` fails with `EmptyContainer` regardless of the requested index,
while `extract(i)` on a non-empty list whose index fails access
normalization fails with the distinct `OutOfRange` error kind. -/
theorem extract_error_kinds (l : LinkedList K) (i : Int) :
    (l.size = 0 → l.extract i = .error .EmptyContainer) ∧
    (l.size ≠ 0 → accessNorm l.size i = none → l.extract i = .error .OutOfRange) := by
  constructor
  · intro h0
    simp [LinkedList.extract, h0]
  · intro h0 hn
    simp [LinkedList.extract, h0, hn]

/-- C1 witness: `extract(20)` on a concrete list of size 7 yields
`OutOfRange`; `extract(1)` on an empty list yields `EmptyContainer`. -/
theorem extract_error_kinds_witness :
    l7.extract 20 = .error .OutOfRange ∧
    emptyDLL.extract 1 = .error .EmptyContainer :=
  ⟨(extract_error_kinds l7 20).2 (by decide) (by decide),
   (extract_error_kinds emptyDLL 1).1 (by decide)⟩

/-- C2 counterexample: the claim's `size + 1 + i` insertion rule would make
`insert_at(-1, 9)` on the two-element list `[5, 1]` append at the end,
yielding keys `[5, 1, 9]`; the code (as pinned by the test suite) inserts
before the last element, yielding `[5, 9, 1]`. -/
theorem insert_at_neg_norm_cex :
    keysOfE (l2ex.insert_at (-1) 9) = [5, 9, 1] ∧
    keysOfE (l2ex.insert_at (-1) 9) ≠ [5, 1, 9] := by decide

/-- C2 (amended): a negative index is normalized to `size + i` for access
AND for insertion (not `size + 1 + i`; the one-past-end slot is reachable
only through the nonnegative index `size`); `insert_at` succeeds exactly
when the normalized index lies in `[0, size]` and fails with `OutOfRange`
outside that range. -/
theorem insert_at_normalization (l : LinkedList K) (i : Int) (k : K) :
    (i < 0 → -(l.size : Int) ≤ i →
      l.getitem i = l.getitem ((l.size : Int) + i) ∧
      l.insert_at i k = l.insert_at ((l.size : Int) + i) k) ∧
    ((∃ l2, l.insert_at i k = .ok l2) ↔
      ((0 ≤ i ∧ i ≤ (l.size : Int)) ∨ (-(l.size : Int) ≤ i ∧ i < 0))) ∧
    (¬((0 ≤ i ∧ i ≤ (l.size : Int)) ∨ (-(l.size : Int) ≤ i ∧ i < 0)) →
      l.insert_at i k = .error .OutOfRange) :=
  ⟨fun h2 h1 => ⟨getitem_neg_eq l i h1 h2, insert_at_neg_eq l i k h1 h2⟩,
   insert_at_ok_iff l i k,
   insert_at_oor l i k⟩

/-- C2 witness: the amended normalization applied on a concrete list. -/
theorem insert_at_normalization_witness :
    (l2ex.insert_at (-1) (9 : Int) = l2ex.insert_at ((l2ex.size : Int) + -1) 9) ∧
    l2ex.insert_at 4 (9 : Int) = .error .OutOfRange :=
  ⟨((insert_at_normalization l2ex (-1) 9).1 (by decide) (by decide)).2,
   (insert_at_normalization l2ex 4 9).2.2 (by decide)⟩

/-- C3: from the scenario-A list `[2, 5, 1, 3]`, `insert_at(0, 2)` then
`insert_at(-1, 9)` yields size 6; the head is the node allocated by the
first insertion (identity `buildA.fresh = 4`) holding key 2, and the node
allocated by the second insertion (identity 5, key 9) sits immediately
before the node of identity 3, which was the last node prior to the
insertions (`buildA`'s tail). -/
theorem scenario_insert_at_front_and_before_last :
    infoOfE buildB = some (6, [(4, 2), (2, 2), (0, 5), (1, 1), (5, 9), (3, 3)]) ∧
    buildA.fresh = 4 ∧
    buildA.nodes.map LNode.nid = [2, 0, 1, 3] ∧
    keysOf buildA = [2, 5, 1, 3] := by decide

/-- C4 counterexample: the scenario-A list does not render as the
unquoted `[2, 5, 1, 3]` the claim states. -/
theorem scenario_append_render_cex : buildA.render ≠ "[2, 5, 1, 3]" := by decide

/-- C4 (amended): `append_left(5)`, `append(1)`, `append_left(2)`,
`append(3)` on an empty doubly-linked list yields key order 2, 5, 1, 3 and
the string rendering quotes each element: `['2', '5', '1', '3']`. -/
theorem scenario_append_render :
    buildA.render = "[\x272\x27, \x275\x27, \x271\x27, \x273\x27]" ∧
    keysOf buildA = [2, 5, 1, 3] := by decide

/-- C8: for every list of any variant and every negative index `i` with
`-size ≤ i < 0`, indexed access at `i` returns the same result as indexed
access at `size + i`. -/
theorem neg_index_access_equiv (l : LinkedList K) (i : Int)
    (h1 : -(l.size : Int) ≤ i) (h2 : i < 0) :
    l.getitem i = l.getitem ((l.size : Int) + i) :=
  getitem_neg_eq l i h1 h2

/-- C8 witness: the equivalence applied at a concrete list and index. -/
theorem neg_index_access_equiv_witness :
    l2ex.getitem (-1) = l2ex.getitem ((l2ex.size : Int) + -1) :=
  neg_index_access_equiv l2ex (-1) (by decide) (by decide)

end PyDS

namespace PyDS

variable {K : Type}

/-- C5 counterexample: a circular list with keys 5, 1, 3 does not render
as the unquoted `[5, 1, 3]` form the claim's format implies. -/
theorem render_unquoted_cex : lC7.render ≠ "[5, 1, 3]" := by decide

/-- C5 (amended): for every list variant and state, the rendering is the
bracketed, comma-separated sequence of the single-quoted string form of
each node's key in head-to-tail order (`pyStrList`); an empty list of any
variant renders exactly as `[]`; the rendering walk visits exactly `size`
nodes and never traverses past the tail — on circular variants the tail's
`next` pointer leads back to the head, so only the `size` bound stops the
walk. -/
theorem render_spec [ToString K] (l : LinkedList K) :
    l.render = pyStrList (l.nodes.map (fun n => toString n.key)) ∧
    (l.walk l.size l.headIdx).length = l.size ∧
    (l.size = 0 → l.render = "[]") ∧
    (l.variant.isCircular = true → l.size ≠ 0 → l.nextIdx (l.size - 1) = some 0) := by
  refine ⟨?_, ?_, ?_, nextIdx_tail l⟩
  · unfold LinkedList.render
    rw [walk_full]
  · rw [walk_full]
    rfl
  · intro h0
    have hn : l.nodes = [] := by simpa [LinkedList.size] using h0
    unfold LinkedList.render
    rw [walk_full, hn]
    rfl

/-- C5 witness: the amended rendering facts applied at an empty list and
at a non-empty singly-circular list. -/
theorem render_spec_witness :
    emptyDLL.render = "[]" ∧
    lC7.render = pyStrList ["5", "1", "3"] ∧
    lC7.nextIdx 2 = some 0 :=
  ⟨(render_spec emptyDLL).2.2.1 (by decide),
   ((render_spec lC7).1).trans (by decide),
   (render_spec lC7).2.2.2 rfl (by decide)⟩

/-- C6: indexed access with a valid index returns the stored node itself
(the entry of `nodes` at the normalized position), so rewriting the key at
that node's identity updates exactly that position of the stored state;
access on an empty list or with an index failing normalization yields
`OutOfRange`, never `EmptyContainer`. -/
theorem getitem_spec (l : LinkedList K) (i : Int) :
    (accessNorm l.size i = none → l.getitem i = .error .OutOfRange) ∧
    (l.size = 0 → l.getitem i = .error .OutOfRange) ∧
    (∀ j : Nat, ∀ n : LNode K,
      accessNorm l.size i = some j → l.getitem i = .ok n →
      l.nodes[j]? = some n ∧
      ((l.nodes.map LNode.nid).Nodup → ∀ k2 : K,
        (l.setKeyByNid n.nid k2).nodes[j]? = some ⟨n.nid, k2⟩ ∧
        ∀ j2 : Nat, j2 ≠ j →
          (l.setKeyByNid n.nid k2).nodes[j2]? = l.nodes[j2]?)) := by
  refine ⟨?_, ?_, ?_⟩
  · intro hn
    unfold LinkedList.getitem
    rw [hn]
  · intro h0
    have hn : accessNorm l.size i = none := by
      rw [h0]
      exact (accessNorm_none_iff 0 i).mpr (by omega)
    unfold LinkedList.getitem
    rw [hn]
  · intro j n hj hok
    unfold LinkedList.getitem at hok
    rw [hj] at hok
    cases hg : l.nodes[j]? with
    | none =>
      simp only [hg] at hok
      exact Except.noConfusion hok
    | some m =>
      simp only [hg] at hok
      have hmn : m = n := Except.ok.inj hok
      subst hmn
      exact ⟨rfl, fun hnd k2 => setKey_at_pos l hg hnd k2⟩

/-- C6 witness: access at index 1 of the scenario-A list returns the
stored node `(0, 5)`; rewriting key 0's node to 7 updates position 1 and
leaves position 0 unchanged. -/
theorem getitem_spec_witness :
    buildA.nodes[1]? = some ⟨0, 5⟩ ∧
    (buildA.setKeyByNid 0 7).nodes[1]? = some ⟨0, 7⟩ ∧
    (buildA.setKeyByNid 0 7).nodes[0]? = buildA.nodes[0]? := by
  have h := (getitem_spec buildA 1).2.2 1 ⟨0, 5⟩ (by decide) (by rfl)
  obtain ⟨h1, h2⟩ := h
  have h3 := h2 (by decide) 7
  exact ⟨h1, h3.1, h3.2 0 (by decide)⟩

/-- C7: `search(key)` equals the linear first-match scan of the node
sequence even though it is computed by a walk bounded to exactly `size`
steps; the none result characterizes "no node's key matches"; a found node
has the searched key, is the first match, and is identity-equal to the
node obtained by indexing at its position; on circular variants the tail's
`next` leads back to the head, so only the `size` bound terminates the
scan. -/
theorem search_spec [DecidableEq K] (l : LinkedList K) (k : K) :
    l.search k = l.nodes.find? (fun n => decide (n.key = k)) ∧
    (l.search k = none ↔ ∀ n ∈ l.nodes, n.key ≠ k) ∧
    (∀ n : LNode K, l.search k = some n → n.key = k ∧
      ∃ j : Nat, l.nodes[j]? = some n ∧
        (∀ j2 : Nat, j2 < j → ∃ m, l.nodes[j2]? = some m ∧ m.key ≠ k) ∧
        l.getitem (j : Int) = .ok n) ∧
    (l.variant.isCircular = true → l.size ≠ 0 → l.nextIdx (l.size - 1) = some 0) := by
  refine ⟨search_eq_find l k, ?_, ?_, nextIdx_tail l⟩
  · rw [search_eq_find l k, List.find?_eq_none]
    constructor
    · intro h n hn
      simpa using h n hn
    · intro h n hn
      simpa using h n hn
  · intro n hs
    rw [search_eq_find l k] at hs
    obtain ⟨hp, j, hj, hfirst⟩ := find?_first _ _ _ hs
    refine ⟨by simpa using hp, j, hj, ?_, getitem_nat l hj⟩
    intro j2 hj2
    obtain ⟨m, hm1, hm2⟩ := hfirst j2 hj2
    exact ⟨m, hm1, by simpa using hm2⟩

/-- C7 witness: searching the circular list for key 3 agrees with the
sequence scan, finds a node carrying key 3, and the tail wraps to the
head. -/
theorem search_spec_witness :
    lC7.search 3 = lC7.nodes.find? (fun n => decide (n.key = 3)) ∧
    (⟨2, 3⟩ : LNode Int).key = 3 ∧
    lC7.nextIdx 2 = some 0 :=
  ⟨(search_spec lC7 3).1,
   ((search_spec lC7 3).2.2.1 ⟨2, 3⟩ (by rfl)).1,
   (search_spec lC7 3).2.2.2 rfl (by decide)⟩

end PyDS

namespace PyDS

variable {K : Type}

/-- C9: building a fresh list of any target variant by iterating the
source list's indices in order and appending each observed key yields the
same string rendering, and — when the fresh list's identities are
allocated above every identity of the source — its nodes share no identity
with the source's nodes, so the two lists are fully independent. -/
theorem copy_round_trip [ToString K] (l : LinkedList K) (v : Variant) (start : Nat) :
    (copyList v start l).render = l.render ∧
    ((∀ n ∈ l.nodes, n.nid < start) →
      ∀ m ∈ (copyList v start l).nodes, ∀ n ∈ l.nodes, m.nid ≠ n.nid) := by
  obtain ⟨h1, h2, h3, h4⟩ := copyPrefix_spec v start l l.size (le_refl _)
  have h1b : (copyPrefix v start l l.size).nodes.map LNode.key = l.nodes.map LNode.key := by
    simpa [LinkedList.size, List.take_length] using h1
  rw [copyList_eq_copyPrefix]
  constructor
  · unfold LinkedList.render
    rw [walk_full, walk_full]
    have hs : (copyPrefix v start l l.size).nodes.map (fun n => toString n.key)
        = l.nodes.map (fun n => toString n.key) := by
      have hcomp := congrArg (List.map (fun s : K => (toString s : String))) h1b
      simpa [List.map_map, Function.comp] using hcomp
    rw [hs]
  · intro hlt m hm n hn
    have hmem : m.nid ∈ (copyPrefix v start l l.size).nodes.map LNode.nid :=
      List.mem_map_of_mem _ hm
    rw [h2] at hmem
    obtain ⟨i, hi, hieq⟩ := List.mem_map.mp hmem
    have := hlt n hn
    omega

/-- C9 witness: copying the scenario-A list into a doubly-circular list
with identities from 10 preserves the rendering, and the copied head's
identity 10 differs from the source head's identity 2. -/
theorem copy_round_trip_witness :
    (copyList .doublyCircular 10 buildA).render = buildA.render ∧
    (⟨10, 2⟩ : LNode Int).nid ≠ (⟨2, 2⟩ : LNode Int).nid :=
  ⟨(copy_round_trip buildA .doublyCircular 10).1,
   (copy_round_trip buildA .doublyCircular 10).2 (by decide)
     ⟨10, 2⟩ (by decide) ⟨2, 2⟩ (by decide)⟩

lemma mem_zip_fst_take {α β : Type} :
    ∀ {l1 : List α} {l2 : List β} {p : α × β},
      p ∈ l1.zip l2 → p.1 ∈ l1.take l2.length := by
  intro l1
  induction l1 with
  | nil => intro l2 p h; simp at h
  | cons x xs ih =>
    intro l2 p h
    cases l2 with
    | nil => simp at h
    | cons y ys =>
      simp only [List.zip_cons_cons, List.mem_cons] at h
      rcases h with h | h
      · subst h
        simp [List.take_succ_cons]
      · simp only [List.length_cons, List.take_succ_cons, List.mem_cons]
        exact Or.inr (ih h)

/-- C10: `LinkedListNode(key, data, links, addrs)` stores `key` and `data`
unchanged; the attribute at position `i` pairs the `i`-th link name with
the `i`-th address (`zip` semantics); a surplus link name beyond the
length of `addrs` that is not also a paired name is silently left unset;
the default arguments create exactly the single attribute `next` with
value `None`; and `str(node)` is `str(node.key)` regardless of `data`,
`links` and `addrs`. -/
theorem linkedListNode_spec {D A : Type} (key : K) (data : Option D)
    (links : List String) (addrs : List (Option A)) :
    (mkLinkedListNode key data links addrs).key = key ∧
    (mkLinkedListNode key data links addrs).data = data ∧
    (∀ i : Nat, ∀ name : String, ∀ a : Option A,
      links[i]? = some name → addrs[i]? = some a →
      (mkLinkedListNode key data links addrs).attrs[i]? = some (name, a)) ∧
    (∀ name : String, name ∈ links.drop addrs.length →
      name ∉ links.take addrs.length →
      (mkLinkedListNode key data links addrs).getattr name = none) ∧
    (mkLinkedListNode key data ["next"] ([none] : List (Option A))).attrs
      = [("next", none)] ∧
    (mkLinkedListNode key data ["next"] ([none] : List (Option A))).getattr "next"
      = some none ∧
    (∀ inst : ToString K,
      @LinkedListNode.str K inst D A (mkLinkedListNode key data links addrs)
        = @toString K inst key) := by
  refine ⟨rfl, rfl, ?_, ?_, rfl, rfl, fun _ => rfl⟩
  · intro i name a h1 h2
    exact List.getElem?_zip_eq_some.mpr ⟨h1, h2⟩
  · intro name hdrop htake
    unfold LinkedListNode.getattr
    rw [Option.map_eq_none']
    rw [List.find?_eq_none]
    intro p hp
    have hp2 : p ∈ links.zip addrs := by
      rw [List.mem_reverse] at hp
      exact hp
    have hfst : p.1 ∈ links.take addrs.length := mem_zip_fst_take hp2
    intro hdec
    have : p.1 = name := by simpa using hdec
    exact htake (this ▸ hfst)

/-- C10 witness: the node construction facts at key 5, data 7, surplus
link name `prev`. -/
theorem linkedListNode_spec_witness :
    (mkLinkedListNode (5 : Int) (some (7 : Int)) ["next", "prev"]
      ([some 3] : List (Option Nat))).key = 5 ∧
    (mkLinkedListNode (5 : Int) (some (7 : Int)) ["next", "prev"]
      ([some 3] : List (Option Nat))).attrs[0]? = some ("next", some 3) ∧
    (mkLinkedListNode (5 : Int) (some (7 : Int)) ["next", "prev"]
      ([some 3] : List (Option Nat))).getattr "prev" = none ∧
    (mkLinkedListNode (5 : Int) (some (7 : Int)) ["next"]
      ([none] : List (Option Nat))).attrs = [("next", none)] ∧
    LinkedListNode.str (mkLinkedListNode (5 : Int) (some (7 : Int)) ["next", "prev"]
      ([some 3] : List (Option Nat))) = "5" := by
  obtain ⟨h1, h2, h3, h4, h5, h6, h7⟩ :=
    linkedListNode_spec (5 : Int) (some (7 : Int)) ["next", "prev"]
      ([some 3] : List (Option Nat))
  exact ⟨h1, h3 0 "next" (some 3) (by decide) (by decide),
    h4 "prev" (by decide) (by decide), h5,
    (h7 inferInstance).trans (by decide)⟩

end PyDS
